import Mathlib

/-!
Shallow embedding of the semantic-chunking core of the `discord_data`
repository (`src/lib/kb/text-processing.js`, which bundles the text
normalizer, the semantic chunker and the vector-similarity engine).

Modelling conventions:
* JavaScript strings are modelled as Lean `String` / `List Char`
  (all inputs of interest are ASCII, where UTF-16 indexing and Unicode
  scalar indexing agree).
* JavaScript numbers are modelled as exact rationals `ℚ`; the opaque
  platform primitive `Math.sqrt` is passed in explicitly as a function
  `msqrt : ℚ → ℚ`, so that theorems can state exactly which properties
  of the square root they use.
* Functions that `throw` are modelled in `Except String`.
* The external embedding provider (`generateEmbeddingsBatch`, a network
  call to OpenAI) is passed to `semanticChunk` as an explicit
  `Except String (List Vec)` result.
-/

/-- The set of characters matched by the JavaScript regex class `\s`
(ECMAScript WhiteSpace ∪ LineTerminator). -/
def isWS (c : Char) : Bool :=
  c == ' ' || c == '\t' || c == '\n' || c == '\x0b' || c == '\x0c' || c == '\r' ||
  c == '\u00A0' || c == '\u1680' || ('\u2000' ≤ c && c ≤ '\u200A') || c == '\u2028' ||
  c == '\u2029' || c == '\u202F' || c == '\u205F' || c == '\u3000' || c == '\uFEFF'

/-- Drop trailing JS whitespace. -/
def trimEnd (l : List Char) : List Char :=
  (l.reverse.dropWhile isWS).reverse

/-- JavaScript `String.prototype.trim()` on the character list. -/
def jsTrimList (l : List Char) : List Char :=
  trimEnd (l.dropWhile isWS)

/-- JavaScript `String.prototype.trim()`. -/
def jsTrim (s : String) : String :=
  ⟨jsTrimList s.data⟩

/-- `replace(/\s+/g, ' ')`: every maximal run of whitespace becomes a single
space.  The boolean state records whether we are inside a whitespace run. -/
def collapseWSAux : Bool → List Char → List Char
  | _, [] => []
  | inRun, c :: cs =>
    if isWS c then
      if inRun then collapseWSAux true cs
      else ' ' :: collapseWSAux true cs
    else c :: collapseWSAux false cs

/-- `replace(/\s+/g, ' ')`. -/
def collapseWS (l : List Char) : List Char :=
  collapseWSAux false l

/-- Fuelled worker for `replace(/\n{3,}/g, '\n\n')`: a maximal run of three or
more newlines becomes exactly two, shorter runs are left alone. -/
def collapseNLGo : Nat → List Char → List Char
  | _, [] => []
  | 0, l => l
  | Nat.succ f, c :: cs =>
    if c = '\n' then
      let run := 1 + (cs.takeWhile (fun d => d == '\n')).length
      let rest := cs.dropWhile (fun d => d == '\n')
      if 3 ≤ run then '\n' :: '\n' :: collapseNLGo f rest
      else List.replicate run '\n' ++ collapseNLGo f rest
    else c :: collapseNLGo f cs

/-- `replace(/\n{3,}/g, '\n\n')`. -/
def collapseNL (l : List Char) : List Char :=
  collapseNLGo l.length l

/-- `normalizeText` from `text-processing.js`:
`text.trim().replace(/\s+/g, ' ').replace(/\n{3,}/g, '\n\n').trim()`,
with the JS falsy check `!text` returning `''` for the empty string. -/
def normalizeText (s : String) : String :=
  if s = "" then ""
  else ⟨jsTrimList (collapseNL (collapseWS (jsTrimList s.data)))⟩

/-- The sentence-ending punctuation class `[.!?]`. -/
def isPunctEnd (c : Char) : Bool :=
  c == '.' || c == '!' || c == '?'

/-- ASCII `[A-Za-z]`. -/
def isAsciiLetter (c : Char) : Bool :=
  ('A' ≤ c && c ≤ 'Z') || ('a' ≤ c && c ≤ 'z')

/-- ASCII `[A-Z]`. -/
def isAsciiUpper (c : Char) : Bool :=
  'A' ≤ c && c ≤ 'Z'

/-- Positions where `/([.!?])(\s+|$)/g` matches in `cs`: a punctuation
character that is the last character or is followed by whitespace.
Matches of this regex can never overlap, so the `exec` loop visits exactly
these positions, in increasing order. -/
def matchPositions (cs : List Char) : List Nat :=
  (List.range cs.length).filter
    (fun p => isPunctEnd (cs.getD p ' ') &&
      (p + 1 == cs.length || isWS (cs.getD (p + 1) ' ')))

/-- The `while ((match = sentenceEndPattern.exec(normalized)) !== null)` loop of
`splitIntoSentences`.  Arguments: the normalized text, the remaining match
positions, the `lastIndex` variable, the `sentences` accumulator and the list
of candidate sentences computed so far (every `sentence` value the loop body
builds, pushed or not).  Returns the final `lastIndex`, the pushed sentences
and the candidates. -/
def execLoop (cs : List Char) :
    List Nat → Nat → List (List Char) → List (List Char) →
    Nat × List (List Char) × List (List Char)
  | [], lastIdx, acc, cands => (lastIdx, acc, cands)
  | p :: ps, lastIdx, acc, cands =>
    let sentence := jsTrimList ((cs.take (p + 1)).drop lastIdx)
    let cands' := cands ++ [sentence]
    let mlen := 1 + ((cs.drop (p + 1)).takeWhile isWS).length
    if 2 < sentence.length then
      let isAbbrev := decide (0 < p) && isAsciiLetter (cs.getD (p - 1) ' ')
      if isAbbrev && decide (p + 2 < cs.length) then
        if isAsciiUpper (cs.getD (p + 2) ' ') then
          execLoop cs ps (p + mlen) (acc ++ [sentence]) cands'
        else
          execLoop cs ps lastIdx acc cands'
      else
        execLoop cs ps (p + mlen) (acc ++ [sentence]) cands'
    else
      execLoop cs ps lastIdx acc cands'

/-- The normalization step at the top of `splitIntoSentences`:
`text.trim().replace(/\s+/g, ' ')`. -/
def splitNormalized (s : String) : List Char :=
  collapseWS (jsTrimList s.data)

/-- `splitIntoSentences` from `text-processing.js`. -/
def splitIntoSentences (s : String) : List String :=
  if s = "" then []
  else
    let normalized := splitNormalized s
    if normalized.length = 0 then []
    else
      let r := execLoop normalized (matchPositions normalized) 0 [] []
      let withRemaining :=
        if r.1 < normalized.length then
          let remaining := jsTrimList (normalized.drop r.1)
          if 0 < remaining.length then r.2.1 ++ [remaining] else r.2.1
        else r.2.1
      if withRemaining.isEmpty then [⟨normalized⟩]
      else withRemaining.map (fun l => ⟨l⟩)

/-- The candidate sentences examined by `splitIntoSentences`: the value of the
local variable `sentence` at each punctuation-boundary match, whether or not
it was pushed. -/
def sentenceCandidates (s : String) : List String :=
  if s = "" then []
  else
    let normalized := splitNormalized s
    if normalized.length = 0 then []
    else ((execLoop normalized (matchPositions normalized) 0 [] []).2.2).map
      (fun l => ⟨l⟩)

/-- The sentences pushed by the match loop itself (excluding the trailing
remainder and the no-punctuation fallback). -/
def boundarySentences (s : String) : List String :=
  if s = "" then []
  else
    let normalized := splitNormalized s
    if normalized.length = 0 then []
    else ((execLoop normalized (matchPositions normalized) 0 [] []).2.1).map
      (fun l => ⟨l⟩)

-- ============================================================
-- Vector similarity engine (`similarity.js`)
-- ============================================================

deriving instance DecidableEq for Except

/-- An embedding vector (JS `number[]` modelled exactly over `ℚ`). -/
abbrev Vec := List ℚ

/-- The summation loop shared by `dotProduct` (`sum += vecA[i] * vecB[i]`).
Only reached with equal-length vectors in the source. -/
def dotVal : Vec → Vec → ℚ
  | a :: as, b :: bs => a * b + dotVal as bs
  | _, _ => 0

/-- `dotProduct` from `similarity.js`. -/
def dotProduct (a b : Vec) : Except String ℚ :=
  if a.length ≠ b.length then
    .error ("Vector length mismatch: " ++ toString a.length ++ " vs " ++ toString b.length)
  else .ok (dotVal a b)

/-- The sum of squares computed inside `magnitude`. -/
def sumSq (v : Vec) : ℚ := dotVal v v

/-- `magnitude` from `similarity.js` (`Math.sqrt(sum)` with the opaque
square root passed in as `msqrt`). -/
def magnitude (msqrt : ℚ → ℚ) (v : Vec) : ℚ := msqrt (sumSq v)

/-- `cosineSimilarity` from `similarity.js`.  The `!vecA || !vecB` null check
has no counterpart (vectors are always present in the model). -/
def cosineSimilarity (msqrt : ℚ → ℚ) (a b : Vec) : Except String ℚ :=
  if a.length ≠ b.length then
    .error ("Vector length mismatch: " ++ toString a.length ++ " vs " ++ toString b.length)
  else if a.length = 0 then
    .error "Vectors must not be empty"
  else
    let dot := dotVal a b
    let magA := magnitude msqrt a
    let magB := magnitude msqrt b
    if magA = 0 ∨ magB = 0 then .ok 0
    else .ok (dot / (magA * magB))

/-- `Array.prototype.map` over a throwing callback: the first exception aborts
the whole call. -/
def mapExcept (f : α → Except String β) : List α → Except String (List β)
  | [] => .ok []
  | x :: xs =>
    match f x with
    | .error e => .error e
    | .ok y =>
      match mapExcept f xs with
      | .error e => .error e
      | .ok ys => .ok (y :: ys)

/-- The per-element body of `cosineSimilarityBatch` (its `vectors.map`
callback), with `magA` already computed from the base vector. -/
def batchElem (msqrt : ℚ → ℚ) (base : Vec) (magA : ℚ) (vb : Vec) : Except String ℚ :=
  if vb.length ≠ base.length then
    .error ("Vector length mismatch: " ++ toString base.length ++ " vs " ++ toString vb.length)
  else
    let dot := dotVal base vb
    let magB := magnitude msqrt vb
    if magA = 0 ∨ magB = 0 then .ok 0
    else .ok (dot / (magA * magB))

/-- `cosineSimilarityBatch` from `similarity.js`: computes `magnitude(base)`
once, then maps over `vectors`.  There is no empty-vector check. -/
def cosineSimilarityBatch (msqrt : ℚ → ℚ) (base : Vec) (vectors : List Vec) :
    Except String (List ℚ) :=
  mapExcept (batchElem msqrt base (magnitude msqrt base)) vectors

/-- A concrete computable stand-in for `Math.sqrt` used by witnesses and
counterexamples: exact on rationals whose numerator and denominator are
perfect squares (in particular `ratSqrt 0 = 0` and `ratSqrt 1 = 1`, the only
values those concrete instances rely on). -/
def ratSqrt (q : ℚ) : ℚ :=
  if q ≤ 0 then 0 else (Nat.sqrt q.num.toNat : ℚ) / (Nat.sqrt q.den : ℚ)

-- ============================================================
-- Semantic chunker (`semantic-chunking.js`)
-- ============================================================

/-- A message handed to `semanticChunk`. -/
structure Message where
  content : String
  isTeam : Bool
  timestamp : Int
deriving DecidableEq, Repr

/-- A sentence tagged with its metadata (step 1 of `semanticChunk`). -/
structure SentMeta where
  text : String
  author_role : String
  message_timestamp : Int
  message_index : Nat
  original_message : Message
deriving DecidableEq, Repr

/-- A finalized chunk (the `metadata` object is flattened into the two fields
`sentence_count` and `original_length`). -/
structure Chunk where
  content : String
  author_role : String
  message_timestamp : Int
  sentence_count : Nat
  original_length : Nat
deriving DecidableEq, Repr

/-- The in-progress accumulator (`currentChunk`). -/
structure ChunkAcc where
  sentences : List SentMeta
  embeddings : List Vec
  startTimestamp : Int
  author_role : String

/-- The `options` object of `semanticChunk`; `none` models an absent key. -/
structure ChunkOptions where
  threshold : Option ℚ
  minChunkLength : Option Nat
  maxChunkLength : Option Nat

/-- JS `options.x || default` on a number-valued option: an absent key or an
explicit `0` (falsy) both yield the default. -/
def jsOrQ (v : Option ℚ) (d : ℚ) : ℚ :=
  match v with
  | none => d
  | some x => if x = 0 then d else x

/-- JS `options.x || default` on an integer-valued option. -/
def jsOrN (v : Option Nat) (d : Nat) : Nat :=
  match v with
  | none => d
  | some x => if x = 0 then d else x

/-- `CONFIG.SIMILARITY_THRESHOLD` with the env override absent:
`parseFloat(undefined) || 0.7 = 0.7`. -/
def configThreshold : ℚ := 7 / 10

/-- `CONFIG.MIN_CHUNK_LENGTH`. -/
def configMinChunkLength : Nat := 10

/-- `CONFIG.MAX_CHUNK_LENGTH`. -/
def configMaxChunkLength : Nat := 2000

/-- The sentences surviving normalization and splitting of one message:
skip contents that normalize to empty, split, keep sentences whose trim is
non-blank, push the trimmed text. -/
def sentencesOfMessage (m : Message) : List String :=
  let norm := normalizeText m.content
  if norm.data.length = 0 then []
  else (splitIntoSentences norm).filterMap
    (fun s => if 0 < (jsTrim s).data.length then some (jsTrim s) else none)

/-- Step 1 of `semanticChunk`: the `sentences` array, with `sentenceIndex`
threaded through as `idx`. -/
def prepareSentencesGo : List Message → Nat → List SentMeta
  | [], _ => []
  | m :: ms, idx =>
    let ss := sentencesOfMessage m
    (ss.enum.map (fun p =>
      { text := p.2,
        author_role := if m.isTeam then "team" else "client",
        message_timestamp := m.timestamp,
        message_index := idx + p.1,
        original_message := m })) ++ prepareSentencesGo ms (idx + ss.length)

/-- The full `sentences` array built by step 1 of `semanticChunk`. -/
def prepareSentences (msgs : List Message) : List SentMeta :=
  prepareSentencesGo msgs 0

/-- `finalizeChunk` from `semantic-chunking.js`. -/
def finalizeChunk (c : ChunkAcc) (minLength maxLength : Nat) : Option Chunk :=
  if c.sentences.isEmpty then none
  else
    let content := String.intercalate " " (c.sentences.map SentMeta.text)
    if content.data.length < minLength then none
    else
      let finalContent :=
        if maxLength < content.data.length then
          String.mk (content.data.take maxLength) ++ "..."
        else content
      let hasClient := c.sentences.any (fun s => s.author_role == "client")
      some
        { content := jsTrim finalContent,
          author_role := if hasClient then "client" else c.author_role,
          message_timestamp := c.startTimestamp,
          sentence_count := c.sentences.length,
          original_length := content.data.length }

/-- The `for (let i = 1; ...)` walk of `semanticChunk` (step 3): `cur` is
`currentChunk`, `prevEmb` is `embeddings[i-1]` (always the last embedding
added), `rest` pairs each remaining sentence with its embedding.  Emitted
chunks precede the chunks of the recursive call, matching the push order. -/
def chunkLoop (msqrt : ℚ → ℚ) (threshold : ℚ) (minL maxL : Nat)
    (cur : ChunkAcc) (prevEmb : Vec) :
    List (SentMeta × Vec) → Except String (List Chunk)
  | [] => .ok (finalizeChunk cur minL maxL).toList
  | (s, e) :: rest =>
    match cosineSimilarityBatch msqrt prevEmb [e] with
    | .error msg => .error msg
    | .ok sims =>
      if threshold ≤ sims.headI then
        chunkLoop msqrt threshold minL maxL
          { sentences := cur.sentences ++ [s],
            embeddings := cur.embeddings ++ [e],
            startTimestamp := cur.startTimestamp,
            author_role := if s.author_role == "client" then "client" else cur.author_role }
          e rest
      else
        match chunkLoop msqrt threshold minL maxL
          { sentences := [s], embeddings := [e],
            startTimestamp := s.message_timestamp, author_role := s.author_role }
          e rest with
        | .error msg => .error msg
        | .ok tail => .ok ((finalizeChunk cur minL maxL).toList ++ tail)

/-- `semanticChunk` from `semantic-chunking.js`.  `embedResult` is the outcome
of the external `generateEmbeddingsBatch` call (a network request, passed in
explicitly); `msqrt` is `Math.sqrt`. -/
def semanticChunk (messages : List Message) (options : ChunkOptions)
    (embedResult : Except String (List Vec)) (msqrt : ℚ → ℚ) :
    Except String (List Chunk) :=
  if messages.isEmpty then .ok []
  else
    let threshold := jsOrQ options.threshold configThreshold
    let minL := jsOrN options.minChunkLength configMinChunkLength
    let maxL := jsOrN options.maxChunkLength configMaxChunkLength
    match prepareSentences messages with
    | [] => .ok []
    | s0 :: srest =>
      match embedResult with
      | .error msg =>
        .error ("Failed to generate embeddings for semantic chunking: " ++ msg)
      | .ok embeddings =>
        if embeddings.length ≠ (s0 :: srest).length then
          .error ("Embedding count mismatch: " ++ toString embeddings.length ++
            " embeddings for " ++ toString (s0 :: srest).length ++ " sentences")
        else
          match embeddings with
          | [] => .ok []
          | e0 :: erest =>
            chunkLoop msqrt threshold minL maxL
              { sentences := [s0], embeddings := [e0],
                startTimestamp := s0.message_timestamp,
                author_role := s0.author_role }
              e0 (srest.zip erest)

/-- The accumulator walk of `semanticChunk` with finalization stripped out:
returns the accumulators themselves, in order, instead of the finalized
chunks.  Used to state and prove structural invariants of `chunkLoop`. -/
def groupLoop (msqrt : ℚ → ℚ) (threshold : ℚ) (cur : ChunkAcc) (prevEmb : Vec) :
    List (SentMeta × Vec) → Except String (List ChunkAcc)
  | [] => .ok [cur]
  | (s, e) :: rest =>
    match cosineSimilarityBatch msqrt prevEmb [e] with
    | .error msg => .error msg
    | .ok sims =>
      if threshold ≤ sims.headI then
        groupLoop msqrt threshold
          { sentences := cur.sentences ++ [s], embeddings := cur.embeddings ++ [e],
            startTimestamp := cur.startTimestamp,
            author_role := if s.author_role == "client" then "client" else cur.author_role }
          e rest
      else
        match groupLoop msqrt threshold
            { sentences := [s], embeddings := [e],
              startTimestamp := s.message_timestamp, author_role := s.author_role }
            e rest with
        | .error msg => .error msg
        | .ok tail => .ok (cur :: tail)

/-- The running `author_role` of an accumulator after appending the sentences
`ss` one by one (the `if client then force client` update of `semanticChunk`). -/
def roleFold (r : String) (ss : List SentMeta) : String :=
  ss.foldl (fun acc s => if s.author_role == "client" then "client" else acc) r

/-- A sample message used by witness theorems. -/
def wMessage : Message := ⟨"Hello world", false, 7⟩

/-- A sample tagged sentence used by witness theorems. -/
def wSentence : SentMeta := ⟨"Hello world", "client", 7, 0, wMessage⟩

/-- A sample accumulator used by witness theorems. -/
def wAcc : ChunkAcc := ⟨[wSentence], [[1]], 7, "client"⟩

/-- No two adjacent characters are both whitespace. -/
def NoAdjWS (l : List Char) : Prop :=
  l.Chain' (fun a b => isWS a = false ∨ isWS b = false)

-- ============================================================
-- Theorems
-- ============================================================

/-- C10: `semanticChunk` resolves its options with JavaScript truthiness
(`options.x || CONFIG.X`), so explicitly passing `threshold: 0`,
`minChunkLength: 0` or `maxChunkLength: 0` behaves exactly like omitting the
key: the defaults 0.7, 10 and 2000 are used instead. -/
theorem semanticChunk_zero_options_use_defaults :
    (∀ (messages : List Message) (embedResult : Except String (List Vec))
        (msqrt : ℚ → ℚ),
      semanticChunk messages ⟨some 0, some 0, some 0⟩ embedResult msqrt =
        semanticChunk messages ⟨none, none, none⟩ embedResult msqrt) ∧
    jsOrQ (some 0) configThreshold = configThreshold ∧
    jsOrN (some 0) configMinChunkLength = configMinChunkLength ∧
    jsOrN (some 0) configMaxChunkLength = configMaxChunkLength := by
  refine ⟨fun messages embedResult msqrt => ?_, rfl, rfl, rfl⟩
  simp [semanticChunk, jsOrQ, jsOrN]

/-- C7 counterexample: on `"a\n\n\nb"` the run of three newlines is NOT
collapsed to exactly two newlines; `normalizeText` returns `"a b"` (the
whitespace-collapsing replace runs first and leaves no newlines at all). -/
theorem normalizeText_newline_counterexample :
    normalizeText "a\n\n\nb" = "a b" ∧ normalizeText "a\n\n\nb" ≠ "a\n\nb" := by
  constructor
  · rfl
  · decide

/-- C5 counterexample: on an empty base vector and an empty batch element,
`cosineSimilarityBatch` returns `0` while `cosineSimilarity` fails with the
empty-vector error — the batch function does not replicate the
`EmptyVector` failure condition of the single-pair function. -/
theorem cosineSimilarityBatch_empty_counterexample :
    cosineSimilarityBatch ratSqrt [] [[]] = .ok [0] ∧
    cosineSimilarity ratSqrt [] [] = .error "Vectors must not be empty" :=
  ⟨by with_unfolding_all decide, by with_unfolding_all decide⟩

/-- `mapExcept` only depends on the values of the callback on the list. -/
theorem mapExcept_congr {f g : α → Except String β} :
    ∀ l : List α, (∀ a ∈ l, f a = g a) → mapExcept f l = mapExcept g l := by
  intro l
  induction l with
  | nil => intro _; rfl
  | cons x xs ih =>
    intro h
    simp only [mapExcept, h x (List.mem_cons_self x xs),
      ih (fun a ha => h a (List.mem_cons_of_mem x ha))]

/-- Successful `mapExcept` results are pointwise images. -/
theorem mapExcept_ok_get {f : α → Except String β} :
    ∀ (l : List α) (rs : List β), mapExcept f l = .ok rs →
      ∀ (i : Nat) (hi : i < l.length) (hr : i < rs.length),
        f (l.get ⟨i, hi⟩) = .ok (rs.get ⟨i, hr⟩) := by
  intro l
  induction l with
  | nil => intro rs _ i hi; exact absurd hi (by simp)
  | cons x xs ih =>
    intro rs h i hi hr
    simp only [mapExcept] at h
    cases hfx : f x with
    | error e => rw [hfx] at h; exact absurd h (by simp)
    | ok y =>
      rw [hfx] at h
      cases hrest : mapExcept f xs with
      | error e => rw [hrest] at h; exact absurd h (by simp)
      | ok ys =>
        rw [hrest] at h
        cases h
        cases i with
        | zero => simpa using hfx
        | succ j =>
          exact ih ys hrest j (Nat.lt_of_succ_lt_succ hi) (Nat.lt_of_succ_lt_succ hr)

/-- For a non-empty base vector the batch element computation agrees with the
single-pair function. -/
theorem batchElem_eq_cosineSimilarity (msqrt : ℚ → ℚ) (base : Vec)
    (hb : base ≠ []) (v : Vec) :
    batchElem msqrt base (magnitude msqrt base) v = cosineSimilarity msqrt base v := by
  by_cases hlen : v.length = base.length
  · have hba : ¬ base.length ≠ v.length := by omega
    have hb0 : ¬ base.length = 0 := by
      intro h0
      exact hb (List.eq_nil_of_length_eq_zero h0)
    simp [batchElem, cosineSimilarity, hlen, hba, hb0]
  · have hba : base.length ≠ v.length := fun h => hlen h.symm
    simp [batchElem, cosineSimilarity, hlen, hba]

/-- C5 (amended): for every NON-EMPTY base vector, `cosineSimilarityBatch`
agrees with `cosineSimilarity` applied pairwise, first error included; in
particular every successful batch entry equals the corresponding single-pair
similarity.  (For an empty base paired with an empty vector the two differ:
see the counterexample — batch returns 0 where single fails with
`EmptyVector`.) -/
theorem cosineSimilarityBatch_pairwise (msqrt : ℚ → ℚ) (base : Vec)
    (vectors : List Vec) (hb : base ≠ []) :
    cosineSimilarityBatch msqrt base vectors =
      mapExcept (cosineSimilarity msqrt base) vectors ∧
    ∀ (rs : List ℚ) (i : Nat) (hi : i < vectors.length) (hr : i < rs.length),
      cosineSimilarityBatch msqrt base vectors = .ok rs →
      cosineSimilarity msqrt base (vectors.get ⟨i, hi⟩) = .ok (rs.get ⟨i, hr⟩) := by
  have heq : cosineSimilarityBatch msqrt base vectors =
      mapExcept (cosineSimilarity msqrt base) vectors :=
    mapExcept_congr vectors
      (fun v _ => batchElem_eq_cosineSimilarity msqrt base hb v)
  refine ⟨heq, fun rs i hi hr hok => ?_⟩
  rw [heq] at hok
  exact mapExcept_ok_get vectors rs hok i hi hr

/-- Witness for C5 (amended) at base `[1]`, batch `[[1],[2]]`. -/
theorem cosineSimilarityBatch_pairwise_witness :
    cosineSimilarityBatch ratSqrt [1] [[1], [2]] =
      mapExcept (cosineSimilarity ratSqrt [1]) [[1], [2]] :=
  (cosineSimilarityBatch_pairwise ratSqrt [1] [[1], [2]] (by decide)).1

/-- C4 counterexample: a two-sentence message whose sentences both receive the
identical all-zero embedding `[0]` yields consecutive similarity 0 (not 1.0),
which is below the default threshold 0.7, so `semanticChunk` emits TWO chunks,
not one. -/
theorem semanticChunk_identical_zero_counterexample :
    semanticChunk [⟨"Aaaa bbbb. Cccc dddd.", false, 0⟩] ⟨none, none, none⟩
        (.ok [[0], [0]]) ratSqrt =
      .ok [⟨"Aaaa bbbb.", "client", 0, 1, 10⟩, ⟨"Cccc dddd.", "client", 0, 1, 10⟩] ∧
    cosineSimilarityBatch ratSqrt [0] [[0]] = .ok [0] := by
  exact ⟨by with_unfolding_all decide, by with_unfolding_all decide⟩

/-- C8 counterexample: on input `"A."` the single punctuation-boundary
candidate is `"A."` itself, of length 2 < 3; it is not pushed at its boundary,
but the trailing-remainder step re-adds the very same text, so the returned
sequence is `["A."]` — the short candidate does appear in the output. -/
theorem splitIntoSentences_short_candidate_counterexample :
    sentenceCandidates "A." = ["A."] ∧
    splitIntoSentences "A." = ["A."] ∧
    ("A." : String).data.length = 2 := by
  exact ⟨rfl, rfl, rfl⟩


/-- C1: whenever at least one sentence survives preparation and the embedding
provider returns a number of vectors different from the number of sentences,
`semanticChunk` fails with the embedding-count-mismatch error; the whole call
returns `error`, so no chunk list (partial or otherwise) is produced. -/
theorem semanticChunk_embedding_count_mismatch
    (messages : List Message) (options : ChunkOptions) (embeddings : List Vec)
    (msqrt : ℚ → ℚ)
    (hs : prepareSentences messages ≠ [])
    (hlen : embeddings.length ≠ (prepareSentences messages).length) :
    semanticChunk messages options (.ok embeddings) msqrt =
      .error ("Embedding count mismatch: " ++ toString embeddings.length ++
        " embeddings for " ++ toString (prepareSentences messages).length ++
        " sentences") := by
  obtain ⟨s0, srest, heq⟩ := List.exists_cons_of_ne_nil hs
  have hm : messages ≠ [] := by
    intro h
    rw [h] at heq
    exact absurd heq (by simp [prepareSentences, prepareSentencesGo])
  have hme : messages.isEmpty = false := by
    cases messages with
    | nil => exact absurd rfl hm
    | cons _ _ => rfl
  rw [heq] at hlen ⊢
  unfold semanticChunk
  rw [hme]
  simp only [Bool.false_eq_true, if_false, heq, hlen, ite_true, if_pos hlen]

/-- Witness for C1: one sentence requested, zero vectors returned. -/
theorem semanticChunk_embedding_count_mismatch_witness :
    semanticChunk [⟨"Hello there.", false, 0⟩] ⟨none, none, none⟩
        (.ok ([] : List Vec)) ratSqrt =
      .error ("Embedding count mismatch: " ++ toString ([] : List Vec).length ++
        " embeddings for " ++
        toString (prepareSentences [⟨"Hello there.", false, 0⟩]).length ++
        " sentences") :=
  semanticChunk_embedding_count_mismatch _ _ _ _ (by decide) (by decide)

/-- C6: finalization of a non-empty accumulator checks `minChunkLength`
against the PRE-truncation length of the space-joined content: below the
minimum the accumulator is discarded entirely (`none`, nothing emitted);
at or above it a chunk is always emitted, and only then is the content
truncated to `maxChunkLength` characters plus `'...'` when too long. -/
theorem finalizeChunk_min_before_truncation
    (acc : ChunkAcc) (minL maxL : Nat) (hne : acc.sentences ≠ []) :
    ((String.intercalate " " (acc.sentences.map SentMeta.text)).data.length < minL →
       finalizeChunk acc minL maxL = none) ∧
    (minL ≤ (String.intercalate " " (acc.sentences.map SentMeta.text)).data.length →
       ∃ out, finalizeChunk acc minL maxL = some out ∧
         out.original_length =
           (String.intercalate " " (acc.sentences.map SentMeta.text)).data.length ∧
         out.content = jsTrim
           (if maxL < (String.intercalate " " (acc.sentences.map SentMeta.text)).data.length
            then String.mk
              ((String.intercalate " " (acc.sentences.map SentMeta.text)).data.take maxL)
              ++ "..."
            else String.intercalate " " (acc.sentences.map SentMeta.text))) := by
  have hie : acc.sentences.isEmpty = false := by
    cases h : acc.sentences with
    | nil => exact absurd h hne
    | cons _ _ => rfl
  constructor
  · intro hlt
    unfold finalizeChunk
    rw [hie]
    simp only [Bool.false_eq_true, if_false, if_pos hlt]
  · intro hge
    have hnlt : ¬ (String.intercalate " " (acc.sentences.map SentMeta.text)).data.length < minL := by
      omega
    unfold finalizeChunk
    rw [hie]
    simp only [Bool.false_eq_true, if_false, if_neg hnlt]
    exact ⟨_, rfl, rfl, rfl⟩

/-- Witness for C6: an 11-character content with `minChunkLength = 3` and
`maxChunkLength = 5` is emitted, truncated to 5 characters plus dots. -/
theorem finalizeChunk_min_before_truncation_witness :
    ∃ out, finalizeChunk wAcc 3 5 = some out ∧
      out.original_length =
        (String.intercalate " " (wAcc.sentences.map SentMeta.text)).data.length ∧
      out.content = jsTrim
        (if 5 < (String.intercalate " " (wAcc.sentences.map SentMeta.text)).data.length
         then String.mk
           ((String.intercalate " " (wAcc.sentences.map SentMeta.text)).data.take 5)
           ++ "..."
         else String.intercalate " " (wAcc.sentences.map SentMeta.text)) :=
  (finalizeChunk_min_before_truncation wAcc 3 5 (by decide)).2 (by decide)


/-- `chunkLoop` is `groupLoop` followed by per-accumulator finalization. -/
theorem chunkLoop_eq_groupLoop (msqrt : ℚ → ℚ) (th : ℚ) (minL maxL : Nat) :
    ∀ (rest : List (SentMeta × Vec)) (cur : ChunkAcc) (prevEmb : Vec),
      chunkLoop msqrt th minL maxL cur prevEmb rest =
        Except.map (fun gs => gs.filterMap (fun a => finalizeChunk a minL maxL))
          (groupLoop msqrt th cur prevEmb rest) := by
  intro rest
  induction rest with
  | nil =>
    intro cur prevEmb
    simp only [chunkLoop, groupLoop, Except.map]
    cases h : finalizeChunk cur minL maxL <;>
      simp [h, Option.toList, List.filterMap_cons]
  | cons p rest ih =>
    obtain ⟨s, e⟩ := p
    intro cur prevEmb
    simp only [chunkLoop, groupLoop]
    cases cosineSimilarityBatch msqrt prevEmb [e] with
    | error msg => rfl
    | ok sims =>
      by_cases hth : th ≤ sims.headI
      · simp only [if_pos hth]
        exact ih _ e
      · simp only [if_neg hth]
        rw [ih _ e]
        cases groupLoop msqrt th
            { sentences := [s], embeddings := [e],
              startTimestamp := s.message_timestamp, author_role := s.author_role }
            e rest with
        | error m => rfl
        | ok tail =>
          simp only [Except.map, List.filterMap_cons]
          cases h : finalizeChunk cur minL maxL <;> simp [h, Option.toList]

/-- The accumulators produced by `groupLoop` partition the walked sentences:
their sentence lists concatenate, in order, to the seed's sentences followed
by the walked sentences. -/
theorem groupLoop_ok_flatten (msqrt : ℚ → ℚ) (th : ℚ) :
    ∀ (rest : List (SentMeta × Vec)) (cur : ChunkAcc) (prevEmb : Vec)
      (gs : List ChunkAcc),
      groupLoop msqrt th cur prevEmb rest = .ok gs →
      (gs.map ChunkAcc.sentences).flatten = cur.sentences ++ rest.map Prod.fst := by
  intro rest
  induction rest with
  | nil =>
    intro cur prevEmb gs h
    simp only [groupLoop] at h
    cases h
    simp
  | cons p rest ih =>
    obtain ⟨s, e⟩ := p
    intro cur prevEmb gs h
    simp only [groupLoop] at h
    split at h
    · exact absurd h (by simp)
    · split at h
      · have hj := ih _ e gs h
        simp only [ChunkAcc.sentences] at hj
        rw [hj]
        simp
      · split at h
        · exact absurd h (by simp)
        · cases h
          rename_i sims hsims hth tail htail
          have hj := ih _ e tail htail
          simp only [ChunkAcc.sentences] at hj
          simp [hj]

/-- `groupLoop` never produces an accumulator with an empty sentence list when
seeded with a non-empty one. -/
theorem groupLoop_ok_nonempty (msqrt : ℚ → ℚ) (th : ℚ) :
    ∀ (rest : List (SentMeta × Vec)) (cur : ChunkAcc) (prevEmb : Vec)
      (gs : List ChunkAcc),
      cur.sentences ≠ [] →
      groupLoop msqrt th cur prevEmb rest = .ok gs →
      ∀ a ∈ gs, a.sentences ≠ [] := by
  intro rest
  induction rest with
  | nil =>
    intro cur prevEmb gs hc h
    simp only [groupLoop] at h
    cases h
    intro a ha
    rw [List.mem_singleton] at ha
    subst ha
    exact hc
  | cons p rest ih =>
    obtain ⟨s, e⟩ := p
    intro cur prevEmb gs hc h
    simp only [groupLoop] at h
    split at h
    · exact absurd h (by simp)
    · split at h
      · exact ih _ e gs (by simp) h
      · split at h
        · exact absurd h (by simp)
        · cases h
          rename_i sims hsims hth tail htail
          intro a ha
          rcases List.mem_cons.mp ha with ha | ha
          · subst ha; exact hc
          · exact ih _ e tail (by simp) htail a ha

/-- Structure of every successful `semanticChunk` call: there is a list of
non-empty accumulators whose sentence lists concatenate to exactly the
prepared sentences, and the returned chunks are the per-accumulator
finalizations (accumulators finalizing to `none` emit nothing). -/
theorem semanticChunk_ok_structure
    (messages : List Message) (options : ChunkOptions)
    (embedResult : Except String (List Vec)) (msqrt : ℚ → ℚ)
    (chunks : List Chunk)
    (h : semanticChunk messages options embedResult msqrt = .ok chunks) :
    ∃ accs : List ChunkAcc,
      (accs.map ChunkAcc.sentences).flatten = prepareSentences messages ∧
      (∀ a ∈ accs, a.sentences ≠ []) ∧
      chunks = accs.filterMap (fun a =>
        finalizeChunk a (jsOrN options.minChunkLength configMinChunkLength)
          (jsOrN options.maxChunkLength configMaxChunkLength)) := by
  unfold semanticChunk at h
  by_cases hm : messages.isEmpty
  · rw [if_pos hm] at h
    cases h
    refine ⟨[], ?_, by simp, by simp⟩
    rw [List.isEmpty_iff.mp hm]
    rfl
  · rw [if_neg hm] at h
    cases hp : prepareSentences messages with
    | nil =>
      rw [hp] at h
      simp only [] at h
      cases h
      exact ⟨[], by simp [hp], by simp, by simp⟩
    | cons s0 srest =>
      rw [hp] at h
      cases embedResult with
      | error m => simp only [] at h; exact absurd h (by simp)
      | ok embeddings =>
        simp only [] at h
        by_cases hlen : embeddings.length ≠ (s0 :: srest).length
        · rw [if_pos hlen] at h
          exact absurd h (by simp)
        · rw [if_neg hlen] at h
          push_neg at hlen
          cases embeddings with
          | nil => exact absurd hlen (by simp)
          | cons e0 erest =>
            simp only [] at h
            rw [chunkLoop_eq_groupLoop] at h
            cases hg : groupLoop msqrt (jsOrQ options.threshold configThreshold)
                { sentences := [s0], embeddings := [e0],
                  startTimestamp := s0.message_timestamp,
                  author_role := s0.author_role }
                e0 (srest.zip erest) with
            | error m => rw [hg] at h; exact absurd h (by simp [Except.map])
            | ok gs =>
              rw [hg] at h
              simp only [Except.map, Except.ok.injEq] at h
              refine ⟨gs, ?_, ?_, h.symm⟩
              · have hj := groupLoop_ok_flatten _ _ _ _ _ _ hg
                have hz : (srest.zip erest).map Prod.fst = srest := by
                  apply List.map_fst_zip
                  simp only [List.length_cons] at hlen
                  omega
                rw [hz] at hj
                simpa [hp] using hj
              · exact groupLoop_ok_nonempty _ _ _ _ _ _ (by simp) hg

/-- C2: on every successful `semanticChunk` call the prepared sentences are
partitioned across the accumulators — each sentence lands in exactly one
accumulator, in order, with no duplication — and the emitted chunks are
exactly the finalizations of those accumulators, an accumulator emitting
nothing precisely when `finalizeChunk` discards it (its joined content being
shorter than `minChunkLength`). -/
theorem semanticChunk_sentence_partition
    (messages : List Message) (options : ChunkOptions)
    (embedResult : Except String (List Vec)) (msqrt : ℚ → ℚ)
    (chunks : List Chunk)
    (h : semanticChunk messages options embedResult msqrt = .ok chunks) :
    ∃ accs : List ChunkAcc,
      (accs.map ChunkAcc.sentences).flatten = prepareSentences messages ∧
      (∀ a ∈ accs, a.sentences ≠ []) ∧
      chunks = accs.filterMap (fun a =>
        finalizeChunk a (jsOrN options.minChunkLength configMinChunkLength)
          (jsOrN options.maxChunkLength configMaxChunkLength)) :=
  semanticChunk_ok_structure messages options embedResult msqrt chunks h

/-- Witness for C2 at a concrete one-sentence call. -/
theorem semanticChunk_sentence_partition_witness :
    ∃ accs : List ChunkAcc,
      (accs.map ChunkAcc.sentences).flatten =
        prepareSentences [⟨"Hello there.", false, 5⟩] ∧
      (∀ a ∈ accs, a.sentences ≠ []) ∧
      [(⟨"Hello there.", "client", 5, 1, 12⟩ : Chunk)] = accs.filterMap (fun a =>
        finalizeChunk a (jsOrN (⟨none, none, none⟩ : ChunkOptions).minChunkLength configMinChunkLength)
          (jsOrN (⟨none, none, none⟩ : ChunkOptions).maxChunkLength configMaxChunkLength)) :=
  semanticChunk_sentence_partition [⟨"Hello there.", false, 5⟩] ⟨none, none, none⟩
    (.ok [[1]]) ratSqrt [⟨"Hello there.", "client", 5, 1, 12⟩]
    (by with_unfolding_all decide)


/-- C3: client role dominates.  (a) Whatever accumulator `finalizeChunk`
emits a chunk from, if any of its sentences is client-authored the chunk's
`author_role` is `"client"`, however many team sentences it contains;
(b) every chunk emitted by a successful `semanticChunk` call is the
finalization of such an accumulator. -/
theorem semanticChunk_client_role_dominance :
    (∀ (acc : ChunkAcc) (minL maxL : Nat) (out : Chunk),
        finalizeChunk acc minL maxL = some out →
        (∃ s ∈ acc.sentences, s.author_role = "client") →
        out.author_role = "client") ∧
    (∀ (messages : List Message) (options : ChunkOptions)
        (embedResult : Except String (List Vec)) (msqrt : ℚ → ℚ)
        (chunks : List Chunk),
        semanticChunk messages options embedResult msqrt = .ok chunks →
        ∀ ch ∈ chunks, ∃ acc : ChunkAcc, acc.sentences ≠ [] ∧
          finalizeChunk acc (jsOrN options.minChunkLength configMinChunkLength)
            (jsOrN options.maxChunkLength configMaxChunkLength) = some ch) := by
  constructor
  · intro acc minL maxL out hfin hcl
    have hany : acc.sentences.any (fun s => s.author_role == "client") = true := by
      rw [List.any_eq_true]
      obtain ⟨s, hs, hrole⟩ := hcl
      exact ⟨s, hs, by simp [hrole]⟩
    unfold finalizeChunk at hfin
    by_cases hie : acc.sentences.isEmpty
    · rw [if_pos hie] at hfin
      exact absurd hfin (by simp)
    · rw [if_neg hie] at hfin
      simp only [] at hfin
      by_cases hlen :
          (" ".intercalate (List.map SentMeta.text acc.sentences)).data.length < minL
      · rw [if_pos hlen] at hfin
        exact absurd hfin (by simp)
      · rw [if_neg hlen] at hfin
        simp only [hany, eq_self_iff_true, if_true, Option.some.injEq] at hfin
        rw [← hfin]
  · intro messages options embedResult msqrt chunks h ch hch
    obtain ⟨accs, _, hne, hchunks⟩ :=
      semanticChunk_ok_structure messages options embedResult msqrt chunks h
    rw [hchunks] at hch
    obtain ⟨a, ha, hfa⟩ := List.mem_filterMap.mp hch
    exact ⟨a, hne a ha, hfa⟩

/-- Witness for C3 at a concrete accumulator holding one client sentence. -/
theorem semanticChunk_client_role_dominance_witness :
    Chunk.author_role ⟨"Hello world", "client", 7, 1, 11⟩ = "client" :=
  semanticChunk_client_role_dominance.1 wAcc 3 2000
    ⟨"Hello world", "client", 7, 1, 11⟩ (by decide)
    ⟨wSentence, by decide, by decide⟩

/-- When the square root is exact at `sumSq v` and `v` is not a zero vector,
comparing `v` with itself through the batch similarity yields exactly 1. -/
theorem cosineSimilarityBatch_self (msqrt : ℚ → ℚ) (v : Vec)
    (hsq : msqrt (sumSq v) * msqrt (sumSq v) = sumSq v) (hnz : sumSq v ≠ 0) :
    cosineSimilarityBatch msqrt v [v] = .ok [1] := by
  have hm : msqrt (sumSq v) ≠ 0 := by
    intro h0
    rw [h0, zero_mul] at hsq
    exact hnz hsq.symm
  simp only [cosineSimilarityBatch, mapExcept, batchElem, magnitude]
  rw [if_neg (by simp)]
  rw [if_neg (by push_neg; exact ⟨hm, hm⟩)]
  have hd : dotVal v v = sumSq v := rfl
  rw [hd, hsq, div_self hnz]

/-- Walking any tail of sentences all paired with the same embedding `v`
(similarity 1 ≥ threshold at every step) extends the seed accumulator with
every sentence and finalizes once at the end. -/
theorem chunkLoop_constant_embedding (msqrt : ℚ → ℚ) (th : ℚ) (minL maxL : Nat)
    (v : Vec)
    (hsq : msqrt (sumSq v) * msqrt (sumSq v) = sumSq v) (hnz : sumSq v ≠ 0)
    (hth : th ≤ 1) :
    ∀ (ss : List SentMeta) (cur : ChunkAcc),
      chunkLoop msqrt th minL maxL cur v (ss.zip (List.replicate ss.length v)) =
        .ok (finalizeChunk
          { sentences := cur.sentences ++ ss,
            embeddings := cur.embeddings ++ List.replicate ss.length v,
            startTimestamp := cur.startTimestamp,
            author_role := roleFold cur.author_role ss } minL maxL).toList := by
  intro ss
  induction ss with
  | nil =>
    intro cur
    simp only [List.length_nil, List.replicate, List.zip_nil_right, chunkLoop,
      List.append_nil, roleFold, List.foldl_nil]
  | cons s ss ih =>
    intro cur
    have hz : (s :: ss).zip (List.replicate (s :: ss).length v) =
        (s, v) :: ss.zip (List.replicate ss.length v) := rfl
    rw [hz]
    simp only [chunkLoop]
    rw [cosineSimilarityBatch_self msqrt v hsq hnz]
    simp only [List.headI]
    rw [if_pos hth]
    rw [ih]
    simp [roleFold, List.append_assoc, List.replicate_succ]

/-- C4 (amended): when every prepared sentence receives the same embedding
vector `v` that is NOT the zero vector (and the square root is exact at its
self-dot-product), every consecutive similarity is exactly 1, which keeps all
sentences in one single accumulator for any threshold ≤ 1; the call emits at
most one chunk — exactly one when that accumulator's joined content passes
`minChunkLength`, zero otherwise.  (For the zero vector the similarity is 0,
not 1: see the counterexample.) -/
theorem semanticChunk_identical_nonzero_embedding
    (messages : List Message) (options : ChunkOptions) (msqrt : ℚ → ℚ) (v : Vec)
    (hsq : msqrt (sumSq v) * msqrt (sumSq v) = sumSq v)
    (hnz : sumSq v ≠ 0)
    (hth : jsOrQ options.threshold configThreshold ≤ 1)
    (hs : prepareSentences messages ≠ []) :
    cosineSimilarityBatch msqrt v [v] = .ok [1] ∧
    ∃ acc : ChunkAcc, acc.sentences = prepareSentences messages ∧
      semanticChunk messages options
        (.ok (List.replicate (prepareSentences messages).length v)) msqrt =
        .ok (finalizeChunk acc (jsOrN options.minChunkLength configMinChunkLength)
          (jsOrN options.maxChunkLength configMaxChunkLength)).toList := by
  refine ⟨cosineSimilarityBatch_self msqrt v hsq hnz, ?_⟩
  obtain ⟨s0, srest, hp⟩ := List.exists_cons_of_ne_nil hs
  have hm : messages ≠ [] := by
    intro h
    rw [h] at hp
    exact absurd hp (by simp [prepareSentences, prepareSentencesGo])
  have hme : messages.isEmpty = false := by
    cases messages with
    | nil => exact absurd rfl hm
    | cons _ _ => rfl
  refine ⟨{ sentences := [s0] ++ srest,
            embeddings := [v] ++ List.replicate srest.length v,
            startTimestamp := s0.message_timestamp,
            author_role := roleFold s0.author_role srest }, by simp [hp], ?_⟩
  unfold semanticChunk
  rw [hme]
  simp only [Bool.false_eq_true, if_false, hp]
  simp only [List.length_cons, List.replicate_succ]
  rw [if_neg (by simp)]
  exact chunkLoop_constant_embedding msqrt _ _ _ v hsq hnz hth srest _

/-- Witness for C4 (amended) at a concrete two-sentence message with the
constant nonzero embedding `[1]`. -/
theorem semanticChunk_identical_nonzero_embedding_witness :
    cosineSimilarityBatch ratSqrt [1] [[1]] = .ok [1] ∧
    ∃ acc : ChunkAcc,
      acc.sentences = prepareSentences [⟨"Aaaa bbbb. Cccc dddd.", false, 3⟩] ∧
      semanticChunk [⟨"Aaaa bbbb. Cccc dddd.", false, 3⟩] ⟨none, none, none⟩
        (.ok (List.replicate
          (prepareSentences [⟨"Aaaa bbbb. Cccc dddd.", false, 3⟩]).length [1])) ratSqrt =
        .ok (finalizeChunk acc
          (jsOrN (⟨none, none, none⟩ : ChunkOptions).minChunkLength configMinChunkLength)
          (jsOrN (⟨none, none, none⟩ : ChunkOptions).maxChunkLength configMaxChunkLength)).toList :=
  semanticChunk_identical_nonzero_embedding
    [⟨"Aaaa bbbb. Cccc dddd.", false, 3⟩] ⟨none, none, none⟩ ratSqrt [1]
    (by with_unfolding_all decide) (by with_unfolding_all decide)
    (by with_unfolding_all decide) (by decide)


/-- Every sentence pushed by the match loop was pushed under the
`sentence.length > 2` guard. -/
theorem execLoop_acc_lengths (cs : List Char) :
    ∀ (ps : List Nat) (lastIdx : Nat) (acc cands : List (List Char)),
      (∀ l ∈ acc, 2 < l.length) →
      ∀ l ∈ (execLoop cs ps lastIdx acc cands).2.1, 2 < l.length := by
  intro ps
  induction ps with
  | nil =>
    intro lastIdx acc cands hacc l hl
    exact hacc l hl
  | cons p ps ih =>
    intro lastIdx acc cands hacc l hl
    simp only [execLoop] at hl
    by_cases h1 : 2 < (jsTrimList ((cs.take (p + 1)).drop lastIdx)).length
    · rw [if_pos h1] at hl
      have hpush : ∀ m ∈ acc ++ [jsTrimList ((cs.take (p + 1)).drop lastIdx)],
          2 < m.length := by
        intro m hm
        rcases List.mem_append.mp hm with hm | hm
        · exact hacc m hm
        · rw [List.mem_singleton] at hm
          rw [hm]
          exact h1
      by_cases h2 : (decide (0 < p) && isAsciiLetter (cs.getD (p - 1) ' ') &&
          decide (p + 2 < cs.length)) = true
      · rw [if_pos h2] at hl
        by_cases h3 : isAsciiUpper (cs.getD (p + 2) ' ') = true
        · rw [if_pos h3] at hl
          exact ih _ _ _ hpush l hl
        · rw [if_neg h3] at hl
          exact ih _ _ _ hacc l hl
      · rw [if_neg h2] at hl
        exact ih _ _ _ hpush l hl
    · rw [if_neg h1] at hl
      exact ih _ _ _ hacc l hl

/-- C8 (amended): every sentence actually pushed at a punctuation boundary by
`splitIntoSentences` has at least 3 characters — candidates shorter than 3 are
never emitted at their boundary.  (Their text is merged into the following
sentence or the trailing remainder instead, so the same text can still appear
in the returned sequence: see the counterexample.) -/
theorem boundarySentences_three_chars (text s : String)
    (hs : s ∈ boundarySentences text) : 2 < s.data.length := by
  unfold boundarySentences at hs
  by_cases ht : text = ""
  · rw [if_pos ht] at hs
    exact absurd hs (List.not_mem_nil s)
  · rw [if_neg ht] at hs
    simp only [] at hs
    by_cases hn : (splitNormalized text).length = 0
    · rw [if_pos hn] at hs
      exact absurd hs (List.not_mem_nil s)
    · rw [if_neg hn] at hs
      obtain ⟨l, hl, hls⟩ := List.mem_map.mp hs
      have h3 := execLoop_acc_lengths (splitNormalized text)
        (matchPositions (splitNormalized text)) 0 [] [] (by simp) l hl
      rw [← hls]
      exact h3

/-- Witness for C8 (amended): a concrete boundary sentence. -/
theorem boundarySentences_three_chars_witness :
    2 < ("Aaaa bbbb." : String).data.length :=
  boundarySentences_three_chars "Aaaa bbbb. Cccc dddd." "Aaaa bbbb." (by decide)

/-- Characters surviving the whitespace collapse are either the replacement
space or non-whitespace. -/
theorem mem_collapseWSAux :
    ∀ (l : List Char) (b : Bool) (c : Char), c ∈ collapseWSAux b l →
      c = ' ' ∨ isWS c = false := by
  intro l
  induction l with
  | nil => intro b c h; simp [collapseWSAux] at h
  | cons a l ih =>
    intro b c h
    simp only [collapseWSAux] at h
    cases b with
    | true =>
      by_cases ha : isWS a = true
      · rw [if_pos ha, if_pos rfl] at h
        exact ih true c h
      · rw [if_neg ha] at h
        rcases List.mem_cons.mp h with h | h
        · rw [Bool.not_eq_true] at ha
          rw [h]
          exact Or.inr ha
        · exact ih false c h
    | false =>
      by_cases ha : isWS a = true
      · rw [if_pos ha, if_neg (by simp)] at h
        rcases List.mem_cons.mp h with h | h
        · exact Or.inl h
        · exact ih true c h
      · rw [if_neg ha] at h
        rcases List.mem_cons.mp h with h | h
        · rw [Bool.not_eq_true] at ha
          rw [h]
          exact Or.inr ha
        · exact ih false c h

/-- The 3+-newline collapse is the identity on newline-free text. -/
theorem collapseNLGo_no_newline :
    ∀ (f : Nat) (l : List Char), (∀ c ∈ l, c ≠ '\n') → collapseNLGo f l = l := by
  intro f
  induction f with
  | zero => intro l h; cases l <;> rfl
  | succ f ih =>
    intro l h
    cases l with
    | nil => rfl
    | cons c cs =>
      have hc : c ≠ '\n' := h c (List.mem_cons_self c cs)
      simp only [collapseNLGo, if_neg hc]
      rw [ih cs (fun d hd => h d (List.mem_cons_of_mem c hd))]

/-- Trimming the end keeps only characters of the original list. -/
theorem mem_trimEnd (m : List Char) (c : Char) (h : c ∈ trimEnd m) : c ∈ m := by
  unfold trimEnd at h
  rw [List.mem_reverse] at h
  have h2 := (List.dropWhile_suffix isWS).sublist.subset h
  rwa [List.mem_reverse] at h2

/-- Trimming keeps only characters of the original list. -/
theorem mem_jsTrimList (l : List Char) (c : Char) (h : c ∈ jsTrimList l) : c ∈ l := by
  unfold jsTrimList at h
  exact (List.dropWhile_suffix isWS).sublist.subset (mem_trimEnd _ _ h)

/-- C7 (amended): `normalizeText` never leaves a newline in its output — the
whitespace collapse `replace(/\s+/g, ' ')` runs first and replaces every
newline run (3+ included) by a single space, so the `\n{3,}` → `\n\n` rule
never fires on anything. -/
theorem normalizeText_no_newline (s : String) :
    (normalizeText s).data.all (fun c => c != '\n') = true := by
  rw [List.all_eq_true]
  intro c hc
  rw [bne_iff_ne]
  by_cases hs : s = ""
  · rw [hs] at hc
    simp [normalizeText] at hc
  · simp only [normalizeText, if_neg hs] at hc
    have hL : ∀ d ∈ collapseWS (jsTrimList s.data), d ≠ '\n' := by
      intro d hd
      rcases mem_collapseWSAux _ _ _ hd with h | h
      · rw [h]; decide
      · intro he
        rw [he] at h
        exact absurd h (by decide)
    have hcol : collapseNL (collapseWS (jsTrimList s.data)) =
        collapseWS (jsTrimList s.data) := by
      unfold collapseNL
      exact collapseNLGo_no_newline _ _ hL
    rw [hcol] at hc
    exact hL c (mem_jsTrimList _ _ hc)


/-- The head surviving `dropWhile` fails the predicate. -/
theorem head?_dropWhile_not (p : Char → Bool) :
    ∀ (l : List Char) (a : Char), (l.dropWhile p).head? = some a → p a = false := by
  intro l
  induction l with
  | nil => intro a h; exact absurd h (by simp)
  | cons x xs ih =>
    intro a h
    by_cases hx : p x = true
    · rw [List.dropWhile_cons_of_pos hx] at h
      exact ih a h
    · rw [List.dropWhile_cons_of_neg hx] at h
      simp only [List.head?_cons, Option.some.injEq] at h
      rw [← h]
      exact Bool.not_eq_true _ |>.mp hx

/-- A list whose head (if any) fails the predicate is unchanged by
`dropWhile`. -/
theorem dropWhile_eq_self_of_head (p : Char → Bool) (l : List Char)
    (h : ∀ a, l.head? = some a → p a = false) : l.dropWhile p = l := by
  cases l with
  | nil => rfl
  | cons x xs =>
    have hx : p x = false := h x rfl
    exact List.dropWhile_cons_of_neg (by simp [hx])

/-- `trimEnd` is an initial segment of its input. -/
theorem trimEnd_append (m : List Char) : ∃ t, m = trimEnd m ++ t := by
  obtain ⟨r, hr⟩ := (List.dropWhile_suffix (l := m.reverse) isWS)
  refine ⟨r.reverse, ?_⟩
  unfold trimEnd
  calc m = m.reverse.reverse := by rw [List.reverse_reverse]
    _ = (r ++ m.reverse.dropWhile isWS).reverse := by rw [hr]
    _ = (m.reverse.dropWhile isWS).reverse ++ r.reverse := by rw [List.reverse_append]

/-- `trimEnd` is idempotent. -/
theorem trimEnd_idem (m : List Char) : trimEnd (trimEnd m) = trimEnd m := by
  unfold trimEnd
  rw [List.reverse_reverse, List.dropWhile_idempotent]

/-- JS trim is idempotent. -/
theorem jsTrimList_idem (l : List Char) : jsTrimList (jsTrimList l) = jsTrimList l := by
  unfold jsTrimList
  have hdrop : (trimEnd (l.dropWhile isWS)).dropWhile isWS = trimEnd (l.dropWhile isWS) := by
    apply dropWhile_eq_self_of_head
    intro a ha
    cases hte : trimEnd (l.dropWhile isWS) with
    | nil => rw [hte] at ha; exact absurd ha (by simp)
    | cons b bs =>
      obtain ⟨t, ht⟩ := trimEnd_append (l.dropWhile isWS)
      rw [hte] at ha ht
      have hh : (l.dropWhile isWS).head? = some a := by
        rw [ht, List.head?_append_of_ne_nil _ (by simp)]
        exact ha
      exact head?_dropWhile_not isWS l a hh
  rw [hdrop, trimEnd_idem]

/-- `dropWhile` preserves the no-adjacent-whitespace property. -/
theorem noAdjWS_dropWhile (p : Char → Bool) :
    ∀ l : List Char, NoAdjWS l → NoAdjWS (l.dropWhile p) := by
  intro l
  induction l with
  | nil => intro h; exact h
  | cons x xs ih =>
    intro h
    by_cases hx : p x = true
    · rw [List.dropWhile_cons_of_pos hx]
      exact ih h.tail
    · rw [List.dropWhile_cons_of_neg hx]
      exact h

/-- `reverse` preserves the no-adjacent-whitespace property. -/
theorem noAdjWS_reverse (l : List Char) (h : NoAdjWS l) : NoAdjWS l.reverse := by
  rw [NoAdjWS, List.chain'_reverse]
  exact h.imp (fun _ _ hab => hab.symm)

/-- `trimEnd` preserves the no-adjacent-whitespace property. -/
theorem noAdjWS_trimEnd (m : List Char) (h : NoAdjWS m) : NoAdjWS (trimEnd m) :=
  noAdjWS_reverse _ (noAdjWS_dropWhile isWS _ (noAdjWS_reverse _ h))

/-- JS trim preserves the no-adjacent-whitespace property. -/
theorem noAdjWS_jsTrimList (l : List Char) (h : NoAdjWS l) : NoAdjWS (jsTrimList l) :=
  noAdjWS_trimEnd _ (noAdjWS_dropWhile isWS _ h)

/-- After skipping a whitespace run the collapse emits a non-whitespace
character first. -/
theorem head?_collapseWSAux_true :
    ∀ (l : List Char) (a : Char), (collapseWSAux true l).head? = some a →
      isWS a = false := by
  intro l
  induction l with
  | nil => intro a h; exact absurd h (by simp [collapseWSAux])
  | cons c cs ih =>
    intro a h
    simp only [collapseWSAux] at h
    by_cases hc : isWS c = true
    · rw [if_pos hc] at h
      simp only [if_true] at h
      exact ih a h
    · rw [if_neg hc] at h
      simp only [List.head?_cons, Option.some.injEq] at h
      rw [← h]
      exact Bool.not_eq_true _ |>.mp hc

/-- The collapse never emits two adjacent whitespace characters. -/
theorem noAdjWS_collapseWSAux : ∀ (l : List Char) (b : Bool), NoAdjWS (collapseWSAux b l) := by
  intro l
  induction l with
  | nil => intro b; exact List.chain'_nil
  | cons c cs ih =>
    intro b
    simp only [collapseWSAux]
    by_cases hc : isWS c = true
    · rw [if_pos hc]
      cases b with
      | true => rw [if_pos rfl]; exact ih true
      | false =>
        rw [if_neg (by simp)]
        rw [NoAdjWS, List.chain'_cons']
        refine ⟨?_, ih true⟩
        intro y hy
        exact Or.inr (head?_collapseWSAux_true cs y hy)
    · rw [if_neg hc]
      rw [NoAdjWS, List.chain'_cons']
      refine ⟨?_, ih false⟩
      intro y _
      exact Or.inl (Bool.not_eq_true _ |>.mp hc)

/-- On text whose whitespace is single spaces separated by non-whitespace,
the collapse is the identity. -/
theorem collapseWSAux_eq_self :
    ∀ l : List Char, (∀ c ∈ l, isWS c = true → c = ' ') → NoAdjWS l →
      collapseWSAux false l = l ∧
      ((∀ a, l.head? = some a → isWS a = false) → collapseWSAux true l = l) := by
  intro l
  induction l with
  | nil => exact fun _ _ => ⟨rfl, fun _ => rfl⟩
  | cons c cs ih =>
    intro hws hadj
    have hws' : ∀ d ∈ cs, isWS d = true → d = ' ' :=
      fun d hd => hws d (List.mem_cons_of_mem c hd)
    have hadj' : NoAdjWS cs := hadj.tail
    constructor
    · by_cases hc : isWS c = true
      · have hcsp : c = ' ' := hws c (List.mem_cons_self c cs) hc
        simp only [collapseWSAux, if_pos hc, if_neg (by simp : ¬ false = true)]
        have hhead : ∀ a, cs.head? = some a → isWS a = false := by
          intro a ha
          have hr := (List.chain'_cons'.mp hadj).1 a ha
          rcases hr with hr | hr
          · rw [hc] at hr; exact absurd hr (by simp)
          · exact hr
        rw [(ih hws' hadj').2 hhead, hcsp]
      · simp only [collapseWSAux, if_neg hc]
        rw [(ih hws' hadj').1]
    · intro hhead
      have hc : isWS c = false := hhead c rfl
      simp only [collapseWSAux, if_neg (by simp [hc] : ¬ isWS c = true)]
      rw [(ih hws' hadj').1]

/-- C9: `normalizeText` is idempotent —
`normalizeText (normalizeText x) = normalizeText x` for every string `x`. -/
theorem normalizeText_idem (s : String) :
    normalizeText (normalizeText s) = normalizeText s := by
  by_cases hs : s = ""
  · rw [hs]
    decide
  · have hform : normalizeText s =
        ⟨jsTrimList (collapseNL (collapseWS (jsTrimList s.data)))⟩ := by
      rw [normalizeText, if_neg hs]
    have hLws : ∀ d ∈ collapseWS (jsTrimList s.data), isWS d = true → d = ' ' := by
      intro d hd hws
      rcases mem_collapseWSAux _ _ _ hd with h | h
      · exact h
      · rw [h] at hws; exact absurd hws (by simp)
    have hLnl : ∀ d ∈ collapseWS (jsTrimList s.data), d ≠ '\n' := by
      intro d hd he
      have := hLws d hd (by rw [he]; decide)
      rw [he] at this
      exact absurd this (by decide)
    have hcol : collapseNL (collapseWS (jsTrimList s.data)) =
        collapseWS (jsTrimList s.data) := by
      unfold collapseNL
      exact collapseNLGo_no_newline _ _ hLnl
    rw [hcol] at hform
    have hyws : ∀ c ∈ jsTrimList (collapseWS (jsTrimList s.data)),
        isWS c = true → c = ' ' :=
      fun c hc => hLws c (mem_jsTrimList _ _ hc)
    have hynl : ∀ c ∈ jsTrimList (collapseWS (jsTrimList s.data)), c ≠ '\n' :=
      fun c hc => hLnl c (mem_jsTrimList _ _ hc)
    have hyadj : NoAdjWS (jsTrimList (collapseWS (jsTrimList s.data))) :=
      noAdjWS_jsTrimList _ (noAdjWS_collapseWSAux _ false)
    have hytrim : jsTrimList (jsTrimList (collapseWS (jsTrimList s.data))) =
        jsTrimList (collapseWS (jsTrimList s.data)) :=
      jsTrimList_idem _
    rw [hform]
    by_cases hy : jsTrimList (collapseWS (jsTrimList s.data)) = []
    · rw [hy]
      decide
    · have hne : (⟨jsTrimList (collapseWS (jsTrimList s.data))⟩ : String) ≠ "" := by
        intro h
        apply hy
        have hd : (⟨jsTrimList (collapseWS (jsTrimList s.data))⟩ : String).data =
            ("" : String).data := by rw [h]
        simpa using hd
      rw [normalizeText, if_neg hne]
      have h2 : collapseWS (jsTrimList (collapseWS (jsTrimList s.data))) =
          jsTrimList (collapseWS (jsTrimList s.data)) :=
        (collapseWSAux_eq_self _ hyws hyadj).1
      have h3 : collapseNL (jsTrimList (collapseWS (jsTrimList s.data))) =
          jsTrimList (collapseWS (jsTrimList s.data)) := by
        unfold collapseNL
        exact collapseNLGo_no_newline _ _ hynl
      show (⟨jsTrimList (collapseNL (collapseWS (jsTrimList
        (jsTrimList (collapseWS (jsTrimList s.data))))))⟩ : String) =
        ⟨jsTrimList (collapseWS (jsTrimList s.data))⟩
      rw [hytrim, h2, h3, hytrim]
